import Mathlib

/-!
Verification of the LiteHyperBus HyperRAM controllers.

This file shallowly embeds the two controller variants of the repository:

* `HyperRAM` (litehyperbus/core/hyperbus.py): command-word generation
  (lines 86-103), the construction-time width/chip-select checks
  (lines 43 and 49), the data shift register (lines 64-84), the clock
  gating (lines 57-62) and the fixed delta-time sequencer built on
  migen.genlib.misc.timeline (lines 105-164).  The timeline is a counter
  that starts on a trigger, fires each scheduled action when the counter
  equals the action time, and wraps to zero at the last event time.

* `HyperRAMX2` (litehyperbus/core/hyperram_ddrx2.py): command-word
  generation (lines 86-93) and the FSM sequencer (lines 95-171), with
  migen semantics: combinational outputs of the active state, NextValue
  giving registered assignment, later statements overriding earlier ones
  for the same target, and delayed_enter expanding to a chain of
  one-tick states.

Machine integers are modelled as Nat with explicit `% 2 ^ w` where the
hardware width matters (the 48-bit command word, the 6-bit timeout
counter, the 2-bit clock phase).  Registers that never feed back into
the signals the claims are about (the 64-bit data shift registers of
HyperRAMX2, the rwds output bits of HyperRAM) are not tracked in the
machine states; no tracked signal depends on them in the source.
-/

/-- Migen-style bit slice x[lo:hiEx] (stop exclusive), as a natural number. -/
def bitSlice (x lo hiEx : Nat) : Nat := x / 2 ^ lo % 2 ^ (hiEx - lo)

/-- Migen Cat(a, b) where a occupies the low `wa` bits and b sits above them. -/
def catBits (a wa b : Nat) : Nat := a % 2 ^ wa + b * 2 ^ wa

/-- Command word of `HyperRAM` for an 8-bit bus (hyperbus.py lines 86-97):
ca[47] = ~we, ca[45] = 1, ca[16:45] = adr[2:], ca[1:3] = adr[0:2], ca[0] = 0.
The wishbone address is a 30-bit signal. -/
def caA8 (adr : Nat) (we : Bool) : Nat :=
  let a := adr % 2 ^ 30
  (if we then 0 else 1) * 2 ^ 47 + 2 ^ 45
    + (a / 2 ^ 2 % 2 ^ 29) * 2 ^ 16 + (a % 2 ^ 2) * 2

/-- Command word of `HyperRAM` for a 16-bit bus (hyperbus.py lines 86-90
and 98-103): ca[47] = ~we, ca[45] = 1, ca[16:45] = adr[3:],
ca[1:3] = adr[1:3], ca[0] = adr[0]. -/
def caA16 (adr : Nat) (we : Bool) : Nat :=
  let a := adr % 2 ^ 30
  (if we then 0 else 1) * 2 ^ 47 + 2 ^ 45
    + (a / 2 ^ 3 % 2 ^ 29) * 2 ^ 16 + (a / 2 % 2 ^ 2) * 2 + a % 2

/-- Command word of `HyperRAM`, selecting on the bus width exactly as the
source does with `if dw == 8: ... else: ...` (hyperbus.py line 92). -/
def caA (dw adr : Nat) (we : Bool) : Nat :=
  if dw = 8 then caA8 adr we else caA16 adr we

/-- Command word of `HyperRAMX2` (hyperram_ddrx2.py lines 86-93):
ca[47] = ~we, ca[45] = 1, ca[16:35] = adr[2:21], ca[1:3] = adr[0:2],
ca[0] = 0.  The wishbone address is a 22-bit signal (adr_width=22). -/
def caX2 (adr : Nat) (we : Bool) : Nat :=
  let a := adr % 2 ^ 22
  (if we then 0 else 1) * 2 ^ 47 + 2 ^ 45
    + (a / 2 ^ 2 % 2 ^ 19) * 2 ^ 16 + (a % 2 ^ 2) * 2

/-- Modelled from the spec: reconstruct a 16-bit-width address from command
word bits {0, [2:1], [44:16]}, the decoding named by the round-trip claim. -/
def decodeAdr16 (ca : Nat) : Nat :=
  ca % 2 + (ca / 2 % 2 ^ 2) * 2 + (ca / 2 ^ 16 % 2 ^ 29) * 2 ^ 3

/-- Modelled from the spec: reconstruct an 8-bit-width address from command
word bits {[2:1], [44:16]}, the decoding named by the round-trip claim. -/
def decodeAdr8 (ca : Nat) : Nat :=
  ca / 2 % 2 ^ 2 + (ca / 2 ^ 16 % 2 ^ 29) * 2 ^ 2

/-- Construction-time configuration of `HyperRAM`. -/
structure HyperRAMCfg where
  dw : Nat
  ncs : Nat
  deriving DecidableEq, Repr

/-- Construction of `HyperRAM` (hyperbus.py __init__).  The checks happen
in source order: `assert dw in [8, 16]` (line 43), then `pads.cs_n[0]` is
indexed (line 48, an exception when there is no chip-select), then
`assert len(pads.cs_n) <= 2` (line 49).  A failed check aborts
construction; otherwise the module is built. -/
def mkHyperRAM (dw ncs : Nat) : Option HyperRAMCfg :=
  if dw = 8 ∨ dw = 16 then
    if 1 ≤ ncs then
      if ncs ≤ 2 then some ⟨dw, ncs⟩ else none
    else none
  else none

/-- One shift step of the `HyperRAM` data shift register (hyperbus.py
lines 67-76), taken on clock phases 0 and 2: during command-address
`sr := Cat(dqi[:8], sr[:-8])`, otherwise `sr := Cat(dqi, sr[:-dw])`. -/
def srShiftA (dw : Nat) (caActive : Bool) (sr dqi : Nat) : Nat :=
  if caActive then catBits dqi 8 (bitSlice sr 0 40)
  else catBits dqi dw (bitSlice sr 0 (48 - dw))

/-- Combinational data-line output of `HyperRAM` (hyperbus.py lines 77-84):
`dq.o = sr[-8:]` during command-address, else `dq.o = sr[-dw:]`. -/
def dqOutA (dw : Nat) (caActive : Bool) (sr : Nat) : Nat :=
  if caActive then bitSlice sr 40 48 else bitSlice sr (48 - dw) 48

/-- Latency wait of the `HyperRAM` sequencer, hyperbus.py line 108:
`lat = (latency * 8) - 4`. -/
def latA (latency : Nat) : Nat := latency * 8 - 4

/-- Timeline offset of the first data action of `HyperRAM`: the command
action is at tick 3 with duration 12, the latency action at tick 15 with
duration `latA`. -/
def tDataA (latency : Nat) : Nat := 15 + latA latency

/-- Timeline offset of the line-release action of `HyperRAM`: after four
2-tick data actions (8-bit bus) or two 2-tick data actions (16-bit bus). -/
def tEndA (dw latency : Nat) : Nat := tDataA latency + (if dw = 8 then 8 else 4)

/-- Last timeline offset of `HyperRAM`: release (2 ticks), ack set
(1 tick), ack clear (1 tick), then the zero-duration terminal entry. -/
def tLastA (dw latency : Nat) : Nat := tEndA dw latency + 4

/-- Registered state of the `HyperRAM` fixed-timeline sequencer. -/
structure RegsA where
  counter : Nat
  clkPhase : Nat
  cs : Bool
  clk : Bool
  dqOe : Bool
  rwdsOe : Bool
  caActive : Bool
  ack : Bool
  deriving DecidableEq, Repr

/-- Per-tick host-bus inputs of `HyperRAM`. -/
structure InA where
  cyc : Bool
  stb : Bool
  we : Bool
  deriving DecidableEq, Repr

/-- One synchronous tick of the `HyperRAM` sequencer: the timeline counter
(migen.genlib.misc.timeline: start on `bus.cyc & bus.stb & (clk_phase == 1)`,
increment while nonzero, wrap to 0 at the last event), the scheduled
actions of dt_seq keyed on the current counter (hyperbus.py lines 114-155),
and the clock gating Case (lines 57-62: clk := cs on phase 1, clk := 0 on
phase 3). -/
def stepA (dw latency : Nat) (r : RegsA) (i : InA) : RegsA :=
  let trig := i.cyc && i.stb && decide (r.clkPhase = 1)
  let c := r.counter
  { counter :=
      if c = tLastA dw latency then 0
      else if c ≠ 0 then c + 1
      else if trig then 1 else 0,
    clkPhase := (r.clkPhase + 1) % 4,
    cs := if c = 3 then true else if c = tEndA dw latency then false else r.cs,
    clk := if r.clkPhase = 1 then r.cs else if r.clkPhase = 3 then false else r.clk,
    dqOe :=
      if c = 3 then true
      else if c = 15 then false
      else if c = tDataA latency then i.we
      else if c = tEndA dw latency then false
      else r.dqOe,
    rwdsOe :=
      if c = tDataA latency then i.we
      else if c = tEndA dw latency then false
      else r.rwdsOe,
    caActive := if c = 3 then true else if c = 15 then false else r.caActive,
    ack :=
      if c = tEndA dw latency + 2 then true
      else if c = tEndA dw latency + 3 then false
      else r.ack }

/-- Reset state of the `HyperRAM` sequencer: all signals zero. -/
def initA : RegsA :=
  { counter := 0, clkPhase := 0, cs := false, clk := false,
    dqOe := false, rwdsOe := false, caActive := false, ack := false }

/-- Trace of the `HyperRAM` sequencer from a start state under an input
stream. -/
def runA (dw latency : Nat) (r : RegsA) (f : Nat → InA) : Nat → RegsA
  | 0 => r
  | n + 1 => stepA dw latency (runA dw latency r f n) (f n)

/-- States of the `HyperRAM` sequencer reachable from reset under some
input stream. -/
inductive ReachableA (dw latency : Nat) : RegsA → Prop where
  | init : ReachableA dw latency initA
  | step (r : RegsA) (i : InA) :
      ReachableA dw latency r → ReachableA dw latency (stepA dw latency r i)

/-- Inductive invariant of the `HyperRAM` sequencer: the timeline counter
never passes the last event, and outside ticks 4..tEndA of a running
schedule the chip-select and both output-enables are deasserted. -/
def InvA (dw latency : Nat) (r : RegsA) : Prop :=
  r.counter ≤ tLastA dw latency ∧
  ((r.counter = 0 ∨ tEndA dw latency < r.counter) →
    r.cs = false ∧ r.dqOe = false ∧ r.rwdsOe = false)

/-- FSM states of `HyperRAMX2` (hyperram_ddrx2.py lines 95-171).
`latencyWait k` is the chain of one-tick states that
`delayed_enter("LATENCY-WAIT", "READ-WRITE-SETUP", latency - 3)` expands
to, with k further chain states to go; `waitSt k` likewise for
`delayed_enter("WAIT", "IDLE", 10)`. -/
inductive StB where
  | idle
  | caSend
  | caWait
  | latency
  | latencyWait (k : Nat)
  | rwSetup
  | readWrite
  | readAck
  | clkOff
  | cleanup
  | holdWait
  | waitSt (k : Nat)
  deriving DecidableEq, Repr

/-- Registered state of the `HyperRAMX2` sequencer.  `tc` is the 6-bit
timeout counter. -/
structure RegsB where
  st : StB
  cs : Bool
  clk : Bool
  dqOe : Bool
  rwdsOe : Bool
  tc : Nat
  deriving DecidableEq, Repr

/-- Per-tick inputs of `HyperRAMX2`: the host bus and the sampled
ready-indicator bit `phy.rwds.i[3]`. -/
structure InB where
  cyc : Bool
  stb : Bool
  we : Bool
  cti : Nat
  rwds3 : Bool
  deriving DecidableEq, Repr

/-- One synchronous tick of the `HyperRAMX2` FSM, translated state by
state from hyperram_ddrx2.py lines 96-171 with migen override semantics
(for one target, the last executed statement wins, so in READ-WRITE the
inner `If(cti == 2)` overrides CLK-OFF and the trailing `If(~cyc)`
overrides everything, and in READ-ACK the trailing timeout If overrides
CLEANUP). -/
def stepB (latency : Nat) (r : RegsB) (i : InB) : RegsB :=
  match r.st with
  | .idle =>
      if i.cyc && i.stb then { r with cs := true, st := .caSend } else r
  | .caSend => { r with clk := true, dqOe := true, st := .caWait }
  | .caWait => { r with tc := 0, st := .latency }
  | .latency => { r with dqOe := false, st := .latencyWait (latency - 4) }
  | .latencyWait 0 => { r with st := .rwSetup }
  | .latencyWait (k + 1) => { r with st := .latencyWait k }
  | .rwSetup => { r with dqOe := i.we, rwdsOe := i.we, st := .readWrite }
  | .readWrite =>
      { r with
        dqOe := if i.we then true else r.dqOe,
        clk := if i.cyc then r.clk else false,
        st :=
          if i.cyc then
            if i.we then (if i.cti = 2 then .readWrite else .clkOff)
            else .readAck
          else .cleanup }
  | .readAck =>
      { r with
        tc := if i.rwds3 then 0 else (r.tc + 1) % 2 ^ 6,
        clk := if i.rwds3 && decide (i.cti ≠ 2) then false else r.clk,
        st :=
          if !i.cyc || decide (20 < r.tc) then .clkOff
          else if i.rwds3 && decide (i.cti ≠ 2) then .cleanup
          else .readAck }
  | .clkOff => { r with clk := false, st := .cleanup }
  | .cleanup =>
      { r with cs := false, rwdsOe := false, dqOe := false, st := .holdWait }
  | .holdWait => { r with st := .waitSt 9 }
  | .waitSt 0 => { r with st := .idle }
  | .waitSt (k + 1) => { r with st := .waitSt k }

/-- Combinational `bus.ack` of `HyperRAMX2`: asserted in READ-WRITE under
`If(bus.we)` (line 131) and in READ-ACK under `If(phy.rwds.i[3])`
(line 146). -/
def ackB (r : RegsB) (i : InB) : Bool :=
  match r.st with
  | .readWrite => i.we
  | .readAck => i.rwds3
  | _ => false

/-- Reset state of the `HyperRAMX2` FSM: reset_state IDLE, signals zero. -/
def initB : RegsB :=
  { st := .idle, cs := false, clk := false, dqOe := false,
    rwdsOe := false, tc := 0 }

/-- Trace of the `HyperRAMX2` FSM from a start state under an input
stream. -/
def runB (latency : Nat) (r : RegsB) (f : Nat → InB) : Nat → RegsB
  | 0 => r
  | n + 1 => stepB latency (runB latency r f n) (f n)

/-- States of the `HyperRAMX2` FSM reachable from reset under some input
stream. -/
inductive ReachableB (latency : Nat) : RegsB → Prop where
  | init : ReachableB latency initB
  | step (r : RegsB) (i : InB) :
      ReachableB latency r → ReachableB latency (stepB latency r i)

/-- The FSM states of `HyperRAMX2` in which the controller sits between
transactions: IDLE, the WAIT chain, and HOLD-WAIT just before it. -/
def idleLikeB (s : StB) : Prop :=
  s = .idle ∨ s = .holdWait ∨ ∃ k, s = .waitSt k

/-- Inductive invariant of the `HyperRAMX2` FSM: lines and clock are down
in the idle-like states, the clock is already down on entry to CLEANUP,
chip-select is up in CA-SEND, and the clock is only enabled while
chip-select is asserted. -/
def InvB (r : RegsB) : Prop :=
  (idleLikeB r.st →
    r.cs = false ∧ r.dqOe = false ∧ r.rwdsOe = false ∧ r.clk = false) ∧
  (r.st = .cleanup → r.clk = false) ∧
  (r.st = .caSend → r.cs = true) ∧
  (r.clk = true → r.cs = true)

/-- C1: for every transaction request (any address, any write-flag), in both
controller variants the 48-bit command word has bit 47 equal to the logical
negation of the write-flag and bit 45 equal to 1. -/
theorem C1_command_word_direction_and_burst_bits :
    ∀ (dw adr : Nat) (we : Bool),
      Nat.testBit (caA dw adr we) 47 = !we ∧
      Nat.testBit (caA dw adr we) 45 = true ∧
      Nat.testBit (caX2 adr we) 47 = !we ∧
      Nat.testBit (caX2 adr we) 45 = true := by
  intro dw adr we
  have key : ∀ w x y z : Nat, w ≤ 1 → x < 2 ^ 29 → y < 2 ^ 2 → z < 2 →
      (w * 2 ^ 47 + 2 ^ 45 + x * 2 ^ 16 + y * 2 + z) / 2 ^ 47 % 2 = w ∧
      (w * 2 ^ 47 + 2 ^ 45 + x * 2 ^ 16 + y * 2 + z) / 2 ^ 45 % 2 = 1 := by
    intro w x y z hw hx hy hz
    have d47 : (w * 2 ^ 47 + 2 ^ 45 + x * 2 ^ 16 + y * 2 + z) / 2 ^ 47 = w := by
      omega
    have d45 : (w * 2 ^ 47 + 2 ^ 45 + x * 2 ^ 16 + y * 2 + z) / 2 ^ 45
        = w * 2 ^ 2 + 1 := by omega
    rw [d47, d45]
    omega
  have hbit : ∀ n k : Nat, n / 2 ^ k % 2 = (if we then 0 else 1) →
      Nat.testBit n k = !we := by
    intro n k h
    rw [Nat.testBit_to_div_mod, h]
    cases we <;> simp
  have hbit1 : ∀ n k : Nat, n / 2 ^ k % 2 = 1 → Nat.testBit n k = true := by
    intro n k h
    rw [Nat.testBit_to_div_mod, h]
    simp
  have hw : (if we then (0 : Nat) else 1) ≤ 1 := by cases we <;> simp
  have s8 : caA8 adr we
      = (if we then (0 : Nat) else 1) * 2 ^ 47 + 2 ^ 45
        + (adr % 2 ^ 30 / 2 ^ 2 % 2 ^ 29) * 2 ^ 16
        + (adr % 2 ^ 30 % 2 ^ 2) * 2 + 0 := by
    simp [caA8]
  have s16 : caA16 adr we
      = (if we then (0 : Nat) else 1) * 2 ^ 47 + 2 ^ 45
        + (adr % 2 ^ 30 / 2 ^ 3 % 2 ^ 29) * 2 ^ 16
        + (adr % 2 ^ 30 / 2 % 2 ^ 2) * 2 + adr % 2 ^ 30 % 2 := by
    simp [caA16]
  have sx : caX2 adr we
      = (if we then (0 : Nat) else 1) * 2 ^ 47 + 2 ^ 45
        + (adr % 2 ^ 22 / 2 ^ 2 % 2 ^ 19) * 2 ^ 16
        + (adr % 2 ^ 22 % 2 ^ 2) * 2 + 0 := by
    simp [caX2]
  have xb : adr % 2 ^ 22 / 2 ^ 2 % 2 ^ 19 < 2 ^ 29 := by omega
  have k8 := key (if we then 0 else 1) (adr % 2 ^ 30 / 2 ^ 2 % 2 ^ 29)
    (adr % 2 ^ 30 % 2 ^ 2) 0 hw (by omega) (by omega) (by omega)
  have k16 := key (if we then 0 else 1) (adr % 2 ^ 30 / 2 ^ 3 % 2 ^ 29)
    (adr % 2 ^ 30 / 2 % 2 ^ 2) (adr % 2 ^ 30 % 2) hw (by omega) (by omega)
    (by omega)
  have kx := key (if we then 0 else 1) (adr % 2 ^ 22 / 2 ^ 2 % 2 ^ 19)
    (adr % 2 ^ 22 % 2 ^ 2) 0 hw xb (by omega) (by omega)
  refine ⟨?_, ?_, ?_, ?_⟩
  · rcases eq_or_ne dw 8 with h | h
    · rw [caA, if_pos h]
      exact hbit _ _ (by rw [s8]; exact k8.1)
    · rw [caA, if_neg h]
      exact hbit _ _ (by rw [s16]; exact k16.1)
  · rcases eq_or_ne dw 8 with h | h
    · rw [caA, if_pos h]
      exact hbit1 _ _ (by rw [s8]; exact k8.2)
    · rw [caA, if_neg h]
      exact hbit1 _ _ (by rw [s16]; exact k16.2)
  · exact hbit _ _ (by rw [sx]; exact kx.1)
  · exact hbit1 _ _ (by rw [sx]; exact kx.2)

/-- C2: in the fixed-timeline sequencer command encoding, the address split
round-trips: in 16-bit width, decoding command-word bits {0, [2:1], [44:16]}
reconstructs the original address exactly; in 8-bit width, command-word
bit 0 is 0 and decoding bits {[2:1], [44:16]} recovers all address bits. -/
theorem C2_address_split_roundtrip :
    ∀ adr : Nat, adr < 2 ^ 30 → ∀ we : Bool,
      decodeAdr16 (caA 16 adr we) = adr ∧
      caA 8 adr we % 2 = 0 ∧
      decodeAdr8 (caA 8 adr we) = adr := by
  intro adr h we
  have ha : adr % 2 ^ 30 = adr := Nat.mod_eq_of_lt h
  have h16 : caA 16 adr we = caA16 adr we := by simp [caA]
  have h08 : caA 8 adr we = caA8 adr we := by simp [caA]
  refine ⟨?_, ?_, ?_⟩
  · rw [h16]
    have h8 : adr / 2 ^ 3 % 2 ^ 29 = adr / 2 ^ 3 := by omega
    simp only [caA16, decodeAdr16, ha, h8]
    set w := (if we then (0 : Nat) else 1) with hw
    have hw1 : w ≤ 1 := by cases we <;> simp [hw]
    set x := adr / 2 ^ 3 with hx
    set y := adr / 2 % 2 ^ 2 with hy
    set z := adr % 2 with hz
    have hxb : x < 2 ^ 27 := by omega
    have hyb : y < 2 ^ 2 := by omega
    have hzb : z < 2 := by omega
    have e1 : (w * 2 ^ 47 + 2 ^ 45 + x * 2 ^ 16 + y * 2 + z) % 2 = z := by omega
    have d1 : (w * 2 ^ 47 + 2 ^ 45 + x * 2 ^ 16 + y * 2 + z) / 2
        = w * 2 ^ 46 + 2 ^ 44 + x * 2 ^ 15 + y := by omega
    have m1 : (w * 2 ^ 46 + 2 ^ 44 + x * 2 ^ 15 + y) % 2 ^ 2 = y := by omega
    have d3 : (w * 2 ^ 47 + 2 ^ 45 + x * 2 ^ 16 + y * 2 + z) / 2 ^ 16
        = w * 2 ^ 31 + 2 ^ 29 + x := by omega
    have m3 : (w * 2 ^ 31 + 2 ^ 29 + x) % 2 ^ 29 = x := by omega
    rw [e1, d1, m1, d3, m3]
    omega
  · rw [h08]
    simp only [caA8, ha]
    cases we <;> simp <;> omega
  · rw [h08]
    have h8 : adr / 2 ^ 2 % 2 ^ 29 = adr / 2 ^ 2 := by omega
    simp only [caA8, decodeAdr8, ha, h8]
    set w := (if we then (0 : Nat) else 1) with hw
    have hw1 : w ≤ 1 := by cases we <;> simp [hw]
    set x := adr / 2 ^ 2 with hx
    set y := adr % 2 ^ 2 with hy
    have hxb : x < 2 ^ 28 := by omega
    have hyb : y < 2 ^ 2 := by omega
    have d1 : (w * 2 ^ 47 + 2 ^ 45 + x * 2 ^ 16 + y * 2) / 2
        = w * 2 ^ 46 + 2 ^ 44 + x * 2 ^ 15 + y := by omega
    have m1 : (w * 2 ^ 46 + 2 ^ 44 + x * 2 ^ 15 + y) % 2 ^ 2 = y := by omega
    have d3 : (w * 2 ^ 47 + 2 ^ 45 + x * 2 ^ 16 + y * 2) / 2 ^ 16
        = w * 2 ^ 31 + 2 ^ 29 + x := by omega
    have m3 : (w * 2 ^ 31 + 2 ^ 29 + x) % 2 ^ 29 = x := by omega
    rw [d1, m1, d3, m3]
    omega

/-- Witness for C2 at adr = 123456789, we = true. -/
theorem C2_address_split_roundtrip_witness :
    decodeAdr16 (caA 16 123456789 true) = 123456789 ∧
    caA 8 123456789 true % 2 = 0 ∧
    decodeAdr8 (caA 8 123456789 true) = 123456789 :=
  C2_address_split_roundtrip 123456789 (by decide) true

/-- C8: a configuration with an unsupported bus width (not 8 or 16) or more
than two chip-selects refuses to build; every supported configuration
builds, so malformed widths have no runtime error path. -/
theorem C8_construction_checks :
    ∀ dw ncs : Nat,
      ((¬(dw = 8 ∨ dw = 16) ∨ 2 < ncs) → mkHyperRAM dw ncs = none) ∧
      ((dw = 8 ∨ dw = 16) → 1 ≤ ncs → ncs ≤ 2 →
        mkHyperRAM dw ncs = some ⟨dw, ncs⟩) := by
  intro dw ncs
  constructor
  · intro h
    unfold mkHyperRAM
    rcases h with h | h
    · rw [if_neg h]
    · split
      · split
        · rw [if_neg (by omega)]
        · rfl
      · rfl
  · intro h1 h2 h3
    unfold mkHyperRAM
    rw [if_pos h1, if_pos h2, if_pos h3]

/-- Witness for C8: width 7 and 3 chip-selects are refused, the default
16-bit single-chip-select configuration builds. -/
theorem C8_construction_checks_witness :
    mkHyperRAM 7 1 = none ∧ mkHyperRAM 16 3 = none ∧
    mkHyperRAM 16 1 = some ⟨16, 1⟩ :=
  ⟨(C8_construction_checks 7 1).1 (by decide),
   (C8_construction_checks 16 3).1 (by decide),
   (C8_construction_checks 16 1).2 (by decide) (by decide) (by decide)⟩

/-- C9: in the burst variant the command word has bit 0 = 0 and bits
[35:45] = 0; only host address bits [2:21] reach bits [16:35], over the
22-bit host address space. -/
theorem C9_x2_command_word_bits :
    ∀ adr : Nat, adr < 2 ^ 22 → ∀ we : Bool,
      caX2 adr we % 2 = 0 ∧
      caX2 adr we / 2 ^ 35 % 2 ^ 10 = 0 ∧
      caX2 adr we / 2 ^ 16 % 2 ^ 19 = adr / 2 ^ 2 % 2 ^ 19 := by
  intro adr h we
  have ha : adr % 2 ^ 22 = adr := Nat.mod_eq_of_lt h
  simp only [caX2, ha]
  set w := (if we then (0 : Nat) else 1) with hw
  have hw1 : w ≤ 1 := by cases we <;> simp [hw]
  set x := adr / 2 ^ 2 % 2 ^ 19 with hx
  set y := adr % 2 ^ 2 with hy
  have hxb : x < 2 ^ 19 := by omega
  have hyb : y < 2 ^ 2 := by omega
  refine ⟨by omega, ?_, ?_⟩
  · have d : (w * 2 ^ 47 + 2 ^ 45 + x * 2 ^ 16 + y * 2) / 2 ^ 35
        = w * 2 ^ 12 + 2 ^ 10 := by omega
    rw [d]
    omega
  · have d : (w * 2 ^ 47 + 2 ^ 45 + x * 2 ^ 16 + y * 2) / 2 ^ 16
        = w * 2 ^ 31 + 2 ^ 29 + x := by omega
    rw [d]
    omega

/-- Witness for C9 at adr = 4194303 (all 22 address bits set), we = true. -/
theorem C9_x2_command_word_bits_witness :
    caX2 4194303 true % 2 = 0 ∧
    caX2 4194303 true / 2 ^ 35 % 2 ^ 10 = 0 ∧
    caX2 4194303 true / 2 ^ 16 % 2 ^ 19 = 4194303 / 2 ^ 2 % 2 ^ 19 :=
  C9_x2_command_word_bits 4194303 (by decide) true

/-- C10: while the command-address phase is active, the shift register
drives the data lines from its top 8 bits and one shift step consumes
exactly 8 bits, for both configured widths; outside the command phase the
full configured width is driven and shifted per step. -/
theorem C10_ca_phase_shifts_eight_bits :
    ∀ dw : Nat, dw = 8 ∨ dw = 16 → ∀ sr dqi : Nat,
      dqOutA dw true sr = sr / 2 ^ 40 % 2 ^ 8 ∧
      srShiftA dw true sr dqi = srShiftA 8 true sr dqi ∧
      srShiftA dw true sr dqi / 2 ^ 8 = sr % 2 ^ 40 ∧
      srShiftA dw true sr dqi % 2 ^ 8 = dqi % 2 ^ 8 ∧
      dqOutA dw false sr = sr / 2 ^ (48 - dw) % 2 ^ dw ∧
      srShiftA dw false sr dqi / 2 ^ dw = sr % 2 ^ (48 - dw) ∧
      srShiftA dw false sr dqi % 2 ^ dw = dqi % 2 ^ dw := by
  intro dw hdw sr dqi
  rcases hdw with h | h <;> subst h <;>
    refine ⟨?_, ?_, ?_, ?_, ?_, ?_, ?_⟩ <;>
    simp only [srShiftA, dqOutA, bitSlice, catBits, if_true, if_false] <;>
    norm_num <;>
    omega

/-- Witness for C10 at dw = 16, sr and dqi concrete. -/
theorem C10_ca_phase_shifts_eight_bits_witness :
    dqOutA 16 true 123456789012345 = 123456789012345 / 2 ^ 40 % 2 ^ 8 ∧
    srShiftA 16 true 123456789012345 514 = srShiftA 8 true 123456789012345 514 ∧
    srShiftA 16 true 123456789012345 514 / 2 ^ 8 = 123456789012345 % 2 ^ 40 ∧
    srShiftA 16 true 123456789012345 514 % 2 ^ 8 = 514 % 2 ^ 8 ∧
    dqOutA 16 false 123456789012345 = 123456789012345 / 2 ^ 32 % 2 ^ 16 ∧
    srShiftA 16 false 123456789012345 514 / 2 ^ 16 = 123456789012345 % 2 ^ 32 ∧
    srShiftA 16 false 123456789012345 514 % 2 ^ 16 = 514 % 2 ^ 16 :=
  C10_ca_phase_shifts_eight_bits 16 (by decide) 123456789012345 514

/-- Ordering facts about the HyperRAM timeline offsets, for latency ≥ 1. -/
theorem timesA_ge (dw latency : Nat) (hL : 1 ≤ latency) :
    19 ≤ tDataA latency ∧ tDataA latency + 4 ≤ tEndA dw latency ∧
    tEndA dw latency ≤ tDataA latency + 8 ∧
    tLastA dw latency = tEndA dw latency + 4 := by
  unfold tLastA tEndA tDataA latA
  split <;> omega

/-- On a triggered start, the timeline counter of the HyperRAM sequencer
advances one per tick through the whole schedule. -/
theorem counterA_run (dw latency : Nat) (hL : 1 ≤ latency) (r0 : RegsA)
    (f : Nat → InA) (h0 : r0.counter = 0) (hp : r0.clkPhase = 1)
    (hc : (f 0).cyc = true) (hs : (f 0).stb = true) :
    ∀ k, 1 ≤ k → k ≤ tLastA dw latency →
      (runA dw latency r0 f k).counter = k := by
  obtain ⟨hA, hB, hC, hD⟩ := timesA_ge dw latency hL
  intro k
  induction k with
  | zero => intro h1 _; exact absurd h1 (by omega)
  | succ k ih =>
    intro _ h2
    rcases Nat.eq_zero_or_pos k with hk | hk
    · subst hk
      show (stepA dw latency r0 (f 0)).counter = 1
      simp only [stepA, h0, hp, hc, hs]
      rw [if_neg (by omega)]
      simp
    · have hck := ih (by omega) (by omega)
      show (stepA dw latency (runA dw latency r0 f k) (f k)).counter = k + 1
      simp only [stepA, hck]
      rw [if_neg (by omega), if_pos (by omega)]

/-- On a triggered start, the acknowledgment register of the HyperRAM
sequencer is set exactly during the one tick after the timeline entry at
tEndA + 2 fires. -/
theorem ackA_run (dw latency : Nat) (hL : 1 ≤ latency) (r0 : RegsA)
    (f : Nat → InA) (h0 : r0.counter = 0) (hp : r0.clkPhase = 1)
    (ha : r0.ack = false) (hc : (f 0).cyc = true) (hs : (f 0).stb = true) :
    ∀ k, k ≤ tLastA dw latency + 1 →
      ((runA dw latency r0 f k).ack = true ↔ k = tEndA dw latency + 3) := by
  obtain ⟨hA, hB, hC, hD⟩ := timesA_ge dw latency hL
  intro k
  induction k with
  | zero =>
    intro _
    show (r0.ack = true ↔ 0 = tEndA dw latency + 3)
    rw [ha]
    constructor
    · intro h; exact absurd h (by simp)
    · intro h; exact absurd h (by omega)
  | succ k ih =>
    intro h2
    have hprev := ih (by omega)
    show ((stepA dw latency (runA dw latency r0 f k) (f k)).ack = true
      ↔ k + 1 = tEndA dw latency + 3)
    rcases Nat.eq_zero_or_pos k with hk | hk
    · subst hk
      show ((stepA dw latency r0 (f 0)).ack = true
        ↔ 0 + 1 = tEndA dw latency + 3)
      simp only [stepA, h0]
      rw [if_neg (by omega), if_neg (by omega)]
      show (r0.ack = true ↔ 0 + 1 = tEndA dw latency + 3)
      rw [ha]
      constructor
      · intro h; exact absurd h (by simp)
      · intro h; exact absurd h (by omega)
    · have hck := counterA_run dw latency hL r0 f h0 hp hc hs k hk (by omega)
      simp only [stepA, hck]
      by_cases hk2 : k = tEndA dw latency + 2
      · rw [if_pos hk2]
        simp
        omega
      · rw [if_neg hk2]
        by_cases hk3 : k = tEndA dw latency + 3
        · rw [if_pos hk3]
          simp
          omega
        · rw [if_neg hk3, hprev]
          omega

/-- C5: on the fixed-timeline sequencer a triggered single-beat transaction
produces an acknowledgment that is asserted for exactly one tick
(the tick after the entry at tEndA + 2 fires) and deasserted otherwise;
throughout the schedule the timeline counter is nonzero and advances
independently of the host inputs, so no new transaction is accepted until
the counter returns to zero at the terminal idle marker. -/
theorem C5_single_ack_pulse :
    ∀ dw latency : Nat, dw = 8 ∨ dw = 16 → 1 ≤ latency →
    ∀ (r0 : RegsA) (f : Nat → InA),
      r0.counter = 0 → r0.clkPhase = 1 → r0.ack = false →
      (f 0).cyc = true → (f 0).stb = true →
      (∀ k, 1 ≤ k → k ≤ tLastA dw latency →
        (runA dw latency r0 f k).counter = k ∧
        ((runA dw latency r0 f k).ack = true ↔ k = tEndA dw latency + 3)) ∧
      (runA dw latency r0 f (tLastA dw latency + 1)).counter = 0 ∧
      (runA dw latency r0 f (tLastA dw latency + 1)).ack = false := by
  intro dw latency _ hL r0 f h0 hp ha hc hs
  obtain ⟨hA, hB, hC, hD⟩ := timesA_ge dw latency hL
  have hcnt := counterA_run dw latency hL r0 f h0 hp hc hs
  have hack := ackA_run dw latency hL r0 f h0 hp ha hc hs
  refine ⟨fun k hk1 hk2 => ⟨hcnt k hk1 hk2, hack k (by omega)⟩, ?_, ?_⟩
  · show (stepA dw latency (runA dw latency r0 f (tLastA dw latency))
      (f (tLastA dw latency))).counter = 0
    have h := hcnt (tLastA dw latency) (by omega) (by omega)
    simp only [stepA, h]
    simp
  · have h := hack (tLastA dw latency + 1) (by omega)
    cases hb : (runA dw latency r0 f (tLastA dw latency + 1)).ack with
    | false => rfl
    | true => exact absurd (h.mp hb) (by omega)

/-- Witness for C5: the default configuration (16-bit bus, latency 6),
start state with counter 0 and phase 1, constant request inputs. -/
theorem C5_single_ack_pulse_witness :
    ((runA 16 6 { initA with clkPhase := 1 }
        (fun _ => { cyc := true, stb := true, we := true }) 66).ack = true) ∧
    ((runA 16 6 { initA with clkPhase := 1 }
        (fun _ => { cyc := true, stb := true, we := true }) 68).counter = 0) := by
  have h := C5_single_ack_pulse 16 6 (by decide) (by decide)
    { initA with clkPhase := 1 }
    (fun _ => { cyc := true, stb := true, we := true })
    rfl rfl rfl rfl rfl
  exact ⟨((h.1 66 (by decide) (by decide)).2).mpr (by decide), h.2.1⟩

/-- On a triggered start, the data-line output-enable of the HyperRAM
sequencer is deasserted on every tick of the latency window, from the
tick after the entry at 15 fires through the tick the first data entry
fires. -/
theorem dqOeA_latency_window (dw latency : Nat) (hL : 1 ≤ latency)
    (r0 : RegsA) (f : Nat → InA) (h0 : r0.counter = 0) (hp : r0.clkPhase = 1)
    (hc : (f 0).cyc = true) (hs : (f 0).stb = true) :
    ∀ k, 16 ≤ k → k ≤ tDataA latency → (runA dw latency r0 f k).dqOe = false := by
  obtain ⟨hA, hB, hC, hD⟩ := timesA_ge dw latency hL
  have hcnt := counterA_run dw latency hL r0 f h0 hp hc hs
  intro k hk16
  induction k, hk16 using Nat.le_induction with
  | base =>
    intro _
    show (stepA dw latency (runA dw latency r0 f 15) (f 15)).dqOe = false
    have h := hcnt 15 (by omega) (by omega)
    simp only [stepA, h]
    simp
  | succ n hn ih =>
    intro hle
    have h := hcnt n (by omega) (by omega)
    show (stepA dw latency (runA dw latency r0 f n) (f n)).dqOe = false
    simp only [stepA, h]
    rw [if_neg (by omega), if_neg (by omega), if_neg (by omega),
      if_neg (by omega)]
    exact ih (by omega)

/-- C6: the latency entry of the fixed-timeline schedule waits
latency × 8 − 4 ticks, which equals 2 × latency external-clock-edge
periods of four host ticks each minus the fixed 4-tick phase-alignment
offset; the window between the entry at tick 15 and the first data entry
at tDataA has exactly that length, and data-line output-enable is
deasserted on every tick of it. -/
theorem C6_latency_phase_duration :
    ∀ dw latency : Nat, dw = 8 ∨ dw = 16 → 1 ≤ latency →
      latA latency = 2 * latency * 4 - 4 ∧
      tDataA latency - 15 = latA latency ∧
      ∀ (r0 : RegsA) (f : Nat → InA),
        r0.counter = 0 → r0.clkPhase = 1 →
        (f 0).cyc = true → (f 0).stb = true →
        ∀ k, 16 ≤ k → k ≤ tDataA latency →
          (runA dw latency r0 f k).dqOe = false := by
  intro dw latency _ hL
  refine ⟨by unfold latA; omega, by unfold tDataA; omega, ?_⟩
  intro r0 f h0 hp hc hs
  exact dqOeA_latency_window dw latency hL r0 f h0 hp hc hs

/-- Witness for C6: default configuration, concrete tick inside the
latency window. -/
theorem C6_latency_phase_duration_witness :
    latA 6 = 2 * 6 * 4 - 4 ∧
    ((runA 16 6 { initA with clkPhase := 1 }
        (fun _ => { cyc := true, stb := true, we := true }) 40).dqOe = false) := by
  have h := C6_latency_phase_duration 16 6 (by decide) (by decide)
  exact ⟨h.1, h.2.2 { initA with clkPhase := 1 }
    (fun _ => { cyc := true, stb := true, we := true })
    rfl rfl rfl rfl 40 (by decide) (by decide)⟩

/-- C3: if the ready-indicator bit is never asserted after the burst state
machine enters READ-ACK (timeout counter just reset) while the host holds
cycle-active, the machine stays in READ-ACK with the timeout counter
counting 0..21, takes the exit transition on the tick the counter reads
21 (21 ticks after entry), is in CLK-OFF on the next tick, and never
asserts acknowledgment for the pending beat. -/
theorem C3_read_ack_timeout :
    ∀ (latency : Nat) (r0 : RegsB) (f : Nat → InB),
      r0.st = StB.readAck → r0.tc = 0 →
      (∀ t, (f t).rwds3 = false) → (∀ t, t ≤ 21 → (f t).cyc = true) →
      (∀ k, k ≤ 21 → (runB latency r0 f k).st = StB.readAck ∧
        (runB latency r0 f k).tc = k ∧
        ackB (runB latency r0 f k) (f k) = false) ∧
      (runB latency r0 f 22).st = StB.clkOff ∧
      ackB (runB latency r0 f 22) (f 22) = false := by
  intro latency r0 f hst htc hr hc
  have main : ∀ k, k ≤ 21 → (runB latency r0 f k).st = StB.readAck ∧
      (runB latency r0 f k).tc = k := by
    intro k
    induction k with
    | zero => intro _; exact ⟨hst, htc⟩
    | succ k ih =>
      intro hk
      obtain ⟨ihs, iht⟩ := ih (by omega)
      constructor
      · show (stepB latency (runB latency r0 f k) (f k)).st = StB.readAck
        simp only [stepB, ihs, iht, hr k, hc k (by omega)]
        rw [if_neg (by simp; omega)]
        simp
      · show (stepB latency (runB latency r0 f k) (f k)).tc = k + 1
        simp only [stepB, ihs, iht, hr k]
        simp
        omega
  refine ⟨fun k hk => ⟨(main k hk).1, (main k hk).2, ?_⟩, ?_, ?_⟩
  · show ackB (runB latency r0 f k) (f k) = false
    unfold ackB
    rw [(main k hk).1]
    exact hr k
  · obtain ⟨hs21, ht21⟩ := main 21 (by omega)
    show (stepB latency (runB latency r0 f 21) (f 21)).st = StB.clkOff
    simp only [stepB, hs21, ht21, hr 21]
    rw [if_pos (by simp)]
  · have h22 : (runB latency r0 f 22).st = StB.clkOff := by
      obtain ⟨hs21, ht21⟩ := main 21 (by omega)
      show (stepB latency (runB latency r0 f 21) (f 21)).st = StB.clkOff
      simp only [stepB, hs21, ht21, hr 21]
      rw [if_pos (by simp)]
    unfold ackB
    rw [h22]

/-- Witness for C3: latency 6, start in READ-ACK with counter 0, constant
read inputs with the ready bit never asserted. -/
theorem C3_read_ack_timeout_witness :
    ((runB 6 { initB with st := StB.readAck }
        (fun _ => { cyc := true, stb := true, we := false,
                    cti := 0, rwds3 := false }) 22).st = StB.clkOff) ∧
    ((runB 6 { initB with st := StB.readAck }
        (fun _ => { cyc := true, stb := true, we := false,
                    cti := 0, rwds3 := false }) 10).tc = 10) := by
  have h := C3_read_ack_timeout 6 { initB with st := StB.readAck }
    (fun _ => { cyc := true, stb := true, we := false,
                cti := 0, rwds3 := false })
    rfl rfl (fun _ => rfl) (fun _ _ => rfl)
  exact ⟨h.2.1, (h.1 10 (by decide)).2.1⟩

/-- C7: an incrementing-burst write (cti = 2) with the host holding
cycle-active keeps the burst state machine in READ-WRITE for all N beats,
never returning to IDLE, with the acknowledgment output asserted on every
one of the N beats. -/
theorem C7_burst_write_acks :
    ∀ (latency N : Nat) (r0 : RegsB) (f : Nat → InB),
      r0.st = StB.readWrite →
      (∀ k, k < N → (f k).cyc = true ∧ (f k).we = true ∧ (f k).cti = 2) →
      ∀ k, k < N → (runB latency r0 f k).st = StB.readWrite ∧
        (runB latency r0 f k).st ≠ StB.idle ∧
        ackB (runB latency r0 f k) (f k) = true := by
  intro latency N r0 f hst hin
  have main : ∀ k, k ≤ N → (runB latency r0 f k).st = StB.readWrite ∨ k = N := by
    intro k
    induction k with
    | zero =>
      intro _
      rcases Nat.eq_zero_or_pos N with h | h
      · right; omega
      · left; exact hst
    | succ k ih =>
      intro hk
      rcases Nat.lt_or_ge (k + 1) N with h | h
      · left
        rcases ih (by omega) with ihs | ihs
        · obtain ⟨hcy, hwe, hct⟩ := hin k (by omega)
          show (stepB latency (runB latency r0 f k) (f k)).st = StB.readWrite
          simp only [stepB, ihs, hcy, hwe, hct]
          simp
        · omega
      · right; omega
  intro k hk
  have hs : (runB latency r0 f k).st = StB.readWrite := by
    rcases main k (by omega) with h | h
    · exact h
    · omega
  refine ⟨hs, by rw [hs]; simp, ?_⟩
  unfold ackB
  rw [hs]
  exact (hin k hk).2.1

/-- Witness for C7: latency 6, three burst-write beats. -/
theorem C7_burst_write_acks_witness :
    ((runB 6 { initB with st := StB.readWrite }
        (fun _ => { cyc := true, stb := true, we := true,
                    cti := 2, rwds3 := false }) 2).st = StB.readWrite) ∧
    (ackB (runB 6 { initB with st := StB.readWrite }
        (fun _ => { cyc := true, stb := true, we := true,
                    cti := 2, rwds3 := false }) 2)
      ((fun _ => { cyc := true, stb := true, we := true,
                   cti := 2, rwds3 := false }) 2) = true) := by
  have h := C7_burst_write_acks 6 3 { initB with st := StB.readWrite }
    (fun _ => { cyc := true, stb := true, we := true,
                cti := 2, rwds3 := false })
    rfl (fun _ _ => ⟨rfl, rfl, rfl⟩) 2 (by decide)
  exact ⟨h.1, h.2.2⟩

/-- The gated device clock of the HyperRAM sequencer can only be high
after a tick on which it was already high or chip-select was asserted:
it is set from cs on phase 1 and cleared on phase 3. -/
theorem stepA_clk_rise :
    ∀ (dw latency : Nat) (r : RegsA) (i : InA),
      (stepA dw latency r i).clk = true → r.clk = true ∨ r.cs = true := by
  intro dw latency r i
  simp only [stepA]
  intro h
  split_ifs at h with h1 h2
  · right; exact h
  · left; exact h

/-- The invariant InvA is preserved by every tick of the HyperRAM
sequencer. -/
theorem stepA_invA (dw latency : Nat) (hL : 1 ≤ latency) (r : RegsA)
    (i : InA) (h : InvA dw latency r) :
    InvA dw latency (stepA dw latency r i) := by
  obtain ⟨hA, hB, hC, hD⟩ := timesA_ge dw latency hL
  obtain ⟨hbound, hlines⟩ := h
  constructor
  · simp only [stepA]
    split_ifs <;> omega
  · simp only [stepA]
    intro hcnt
    by_cases hc0 : r.counter = 0
    · simp only [hc0] at hcnt ⊢
      rw [if_neg (by omega)] at hcnt
      simp only [ne_eq, not_true_eq_false, if_false] at hcnt
      by_cases htr : (i.cyc && i.stb && decide (r.clkPhase = 1)) = true
      · rw [if_pos htr] at hcnt
        exact absurd hcnt (by omega)
      · refine ⟨?_, ?_, ?_⟩
        · rw [if_neg (by omega), if_neg (by omega)]
          exact (hlines (Or.inl hc0)).1
        · rw [if_neg (by omega), if_neg (by omega), if_neg (by omega),
            if_neg (by omega)]
          exact (hlines (Or.inl hc0)).2.1
        · rw [if_neg (by omega), if_neg (by omega)]
          exact (hlines (Or.inl hc0)).2.2
    · by_cases hcl : r.counter = tLastA dw latency
      · have hgt : tEndA dw latency < r.counter := by omega
        refine ⟨?_, ?_, ?_⟩
        · rw [if_neg (by omega), if_neg (by omega)]
          exact (hlines (Or.inr hgt)).1
        · rw [if_neg (by omega), if_neg (by omega), if_neg (by omega),
            if_neg (by omega)]
          exact (hlines (Or.inr hgt)).2.1
        · rw [if_neg (by omega), if_neg (by omega)]
          exact (hlines (Or.inr hgt)).2.2
      · rw [if_neg hcl, if_pos hc0] at hcnt
        have hge : tEndA dw latency ≤ r.counter := by omega
        by_cases hce : r.counter = tEndA dw latency
        · refine ⟨?_, ?_, ?_⟩
          · rw [if_neg (by omega), if_pos hce]
          · rw [if_neg (by omega), if_neg (by omega), if_neg (by omega),
              if_pos hce]
          · rw [if_neg (by omega), if_pos hce]
        · have hgt : tEndA dw latency < r.counter := by omega
          refine ⟨?_, ?_, ?_⟩
          · rw [if_neg (by omega), if_neg hce]
            exact (hlines (Or.inr hgt)).1
          · rw [if_neg (by omega), if_neg (by omega), if_neg (by omega),
              if_neg hce]
            exact (hlines (Or.inr hgt)).2.1
          · rw [if_neg (by omega), if_neg hce]
            exact (hlines (Or.inr hgt)).2.2

/-- Every reachable state of the HyperRAM sequencer satisfies InvA. -/
theorem reachableA_invA (dw latency : Nat) (hL : 1 ≤ latency) :
    ∀ r, ReachableA dw latency r → InvA dw latency r := by
  intro r h
  induction h with
  | init => exact ⟨Nat.zero_le _, fun _ => ⟨rfl, rfl, rfl⟩⟩
  | step r i hr ih => exact stepA_invA dw latency hL r i ih

/-- The invariant InvB is preserved by every tick of the HyperRAMX2 FSM. -/
theorem stepB_invB (latency : Nat) (r : RegsB) (i : InB) (h : InvB r) :
    InvB (stepB latency r i) := by
  obtain ⟨st, cs, clk, dqOe, rwdsOe, tc⟩ := r
  obtain ⟨hidle, hclean, hca, hclk⟩ := h
  simp only [InvB, idleLikeB] at hidle hclean hca hclk ⊢
  cases st with
  | idle =>
    obtain ⟨hc1, hc2, hc3, hc4⟩ := hidle (Or.inl rfl)
    by_cases hb : (i.cyc && i.stb) = true <;>
      simp [stepB, hb, hc1, hc2, hc3, hc4]
  | caSend =>
    have hcs := hca rfl
    simp [stepB, hcs]
  | caWait =>
    refine ⟨by simp [stepB], by simp [stepB], by simp [stepB], ?_⟩
    simp only [stepB]
    exact hclk
  | latency =>
    refine ⟨by simp [stepB], by simp [stepB], by simp [stepB], ?_⟩
    simp only [stepB]
    exact hclk
  | latencyWait k =>
    cases k with
    | zero =>
      refine ⟨by simp [stepB], by simp [stepB], by simp [stepB], ?_⟩
      simp only [stepB]
      exact hclk
    | succ k =>
      refine ⟨by simp [stepB], by simp [stepB], by simp [stepB], ?_⟩
      simp only [stepB]
      exact hclk
  | rwSetup =>
    refine ⟨by simp [stepB], by simp [stepB], by simp [stepB], ?_⟩
    simp only [stepB]
    exact hclk
  | readWrite =>
    by_cases hcy : i.cyc = true
    · by_cases hwe : i.we = true <;> by_cases hct : i.cti = 2 <;>
        simp [stepB, hcy, hwe, hct] <;> exact hclk
    · simp [stepB, hcy]
  | readAck =>
    by_cases hcy : i.cyc = true <;> by_cases htc : 20 < tc <;>
      by_cases hr3 : i.rwds3 = true <;> by_cases hct : i.cti = 2 <;>
        simp [stepB, hcy, htc, hr3, hct, hclk] <;> exact hclk
  | clkOff =>
    simp [stepB]
  | cleanup =>
    have hck := hclean rfl
    simp [stepB, hck]
  | holdWait =>
    obtain ⟨hc1, hc2, hc3, hc4⟩ := hidle (Or.inr (Or.inl rfl))
    simp [stepB, hc1, hc2, hc3, hc4]
  | waitSt k =>
    obtain ⟨hc1, hc2, hc3, hc4⟩ := hidle (Or.inr (Or.inr ⟨k, rfl⟩))
    cases k with
    | zero => simp [stepB, hc1, hc2, hc3, hc4]
    | succ k => simp [stepB, hc1, hc2, hc3, hc4]

/-- Every reachable state of the HyperRAMX2 FSM satisfies InvB. -/
theorem reachableB_invB (latency : Nat) :
    ∀ r, ReachableB latency r → InvB r := by
  intro r h
  induction h with
  | init =>
    refine ⟨fun _ => ⟨rfl, rfl, rfl, rfl⟩, fun _ => rfl, fun h => ?_,
      fun h => ?_⟩ <;> exact absurd h (by decide)
  | step r i hr ih => exact stepB_invB latency r i ih

/-- C4: in every reachable state in which the controller is idle, lines
are safe.  For the fixed-timeline variant (HyperRAM): whenever the
timeline counter is zero (no schedule running), chip-select and both
output-enables are deasserted, and the gated device clock can only come
up on a tick where chip-select is asserted.  For the burst variant
(HyperRAMX2): in every reachable IDLE or WAIT-chain state, chip-select,
both output-enables and the device clock enable are deasserted, and in
every reachable state the clock enable is only high while chip-select is
asserted. -/
theorem C4_idle_safety :
    (∀ dw latency : Nat, (dw = 8 ∨ dw = 16) → 1 ≤ latency →
      ∀ r, ReachableA dw latency r → r.counter = 0 →
        r.cs = false ∧ r.dqOe = false ∧ r.rwdsOe = false) ∧
    (∀ (dw latency : Nat) (r : RegsA) (i : InA),
      (stepA dw latency r i).clk = true → r.clk = true ∨ r.cs = true) ∧
    (∀ (latency : Nat) (r : RegsB), ReachableB latency r →
      (r.st = StB.idle ∨ (∃ k, r.st = StB.waitSt k)) →
        r.cs = false ∧ r.dqOe = false ∧ r.rwdsOe = false ∧ r.clk = false) ∧
    (∀ (latency : Nat) (r : RegsB), ReachableB latency r →
      r.clk = true → r.cs = true) := by
  refine ⟨?_, stepA_clk_rise, ?_, ?_⟩
  · intro dw latency _ hL r hr h0
    exact (reachableA_invA dw latency hL r hr).2 (Or.inl h0)
  · intro latency r hr hil
    refine (reachableB_invB latency r hr).1 ?_
    rcases hil with h | ⟨k, h⟩
    · exact Or.inl h
    · exact Or.inr (Or.inr ⟨k, h⟩)
  · intro latency r hr
    exact (reachableB_invB latency r hr).2.2.2

/-- Witness for C4: the reset states of both variants are idle with all
lines deasserted. -/
theorem C4_idle_safety_witness :
    (initA.cs = false ∧ initA.dqOe = false ∧ initA.rwdsOe = false) ∧
    (initB.cs = false ∧ initB.dqOe = false ∧ initB.rwdsOe = false ∧
      initB.clk = false) :=
  ⟨C4_idle_safety.1 16 6 (Or.inr rfl) (by decide) initA ReachableA.init rfl,
   C4_idle_safety.2.2.1 6 initB ReachableB.init (Or.inl rfl)⟩
